import Mathlib

/-!
Shallow embedding of the two source files of the repository:

* `img2superpoint.py` — keypoint detection: `simple_nms`, `remove_borders`,
  `top_k_keypoints`, the configuration check of `SuperPoint.__init__`, and the
  keypoint-selection portion of `SuperPoint.forward` (the convolutional
  backbone is an opaque pretrained collaborator; its two dense outputs, the
  score map and the descriptor map, are inputs of the embedded pipeline).
* `superpoints2rank.py` — matching: `log_sinkhorn_iterations`,
  `log_optimal_transport`, the match-extraction tail of `SuperGlue.forward`,
  its empty-input fast path, and `ranking_score`.

Score maps and scores are modelled over `ℚ` (exact rationals in place of
float32) on the detector side, where the code only adds, compares and takes
maxima.  The matcher tail uses `exp`/`log`, so it is modelled over `ℝ` with
`Real.exp`/`Real.log`.  The batch dimension is 1 throughout the repository and
is dropped.  Python integers are `ℤ`, tensor indices `Fin`/`ℕ`.
-/

/-! ## img2superpoint.py : simple_nms -/

/-- Grid membership for a position of an `H × W` score map. -/
abbrev inGrid (H W : ℕ) (p : ℕ × ℕ) : Prop := p.1 < H ∧ p.2 < W

/-- The index window that `max_pool2d(kernel_size=2*r+1, stride=1, padding=r)`
reads at position `p` of an `H × W` map: the square of radius `r` around `p`
clipped to the grid (PyTorch pads max-pooling with `-inf`, i.e. out-of-grid
positions never contribute).  `p` itself is inserted so that the window is
never empty; for `p` inside the grid the insertion is a no-op. -/
def nbhd (H W r : ℕ) (p : ℕ × ℕ) : Finset (ℕ × ℕ) :=
  insert p
    (Finset.Icc (p.1 - r) (min (p.1 + r) (H - 1)) ×ˢ
     Finset.Icc (p.2 - r) (min (p.2 + r) (W - 1)))

/-- `max_pool(x)` of `simple_nms`: the maximum of the map on the window. -/
def maxpool (H W r : ℕ) (s : ℕ × ℕ → ℚ) (p : ℕ × ℕ) : ℚ :=
  (nbhd H W r p).sup' (Finset.insert_nonempty _ _) s

/-- `scores == max_pool(scores)` as a boolean mask. -/
def localMax (H W r : ℕ) (s : ℕ × ℕ → ℚ) (p : ℕ × ℕ) : Bool :=
  decide (s p = maxpool H W r s p)

/-- `max_pool(mask.float()) > 0`: the suppression mask of one NMS pass. -/
def suppOf (H W r : ℕ) (m : ℕ × ℕ → Bool) (p : ℕ × ℕ) : Bool :=
  decide (0 < maxpool H W r (fun q => if m q then (1 : ℚ) else 0) p)

/-- `torch.where(supp_mask, zeros, scores)`. -/
def suppScoresOf (s : ℕ × ℕ → ℚ) (supp : ℕ × ℕ → Bool) : ℕ × ℕ → ℚ :=
  fun p => if supp p then 0 else s p

/-- One iteration of the `for _ in range(2)` loop of `simple_nms`:
`max_mask = max_mask | (new_max_mask & (~supp_mask))`. -/
def nmsPass (H W r : ℕ) (s : ℕ × ℕ → ℚ) (m : ℕ × ℕ → Bool) : ℕ × ℕ → Bool :=
  fun p =>
    m p ||
      (localMax H W r (suppScoresOf s (suppOf H W r m)) p && !(suppOf H W r m p))

/-- `simple_nms(scores, nms_radius)` of `img2superpoint.py`: initial mask of
local maxima, two suppression passes, and `torch.where(max_mask, scores, zeros)`. -/
def simple_nms (H W r : ℕ) (s : ℕ × ℕ → ℚ) : ℕ × ℕ → ℚ :=
  fun p =>
    if nmsPass H W r s (nmsPass H W r s (localMax H W r s)) p then s p else 0

/-- Soundness invariant of an NMS survivor mask: any two marked positions of
the grid lying in each other's window carry equal scores (stated as `≤` for
an arbitrary ordered pair).  It holds for the initial local-maximum mask and
is preserved by each suppression pass. -/
def survivorsSound (H W r : ℕ) (s : ℕ × ℕ → ℚ) (m : ℕ × ℕ → Bool) : Prop :=
  ∀ p q, inGrid H W p → inGrid H W q → m p = true → m q = true →
    q ∈ nbhd H W r p → s q ≤ s p

/-! ## img2superpoint.py : remove_borders, top_k_keypoints -/

/-- One entry of the boolean mask `mask_h & mask_w` of `remove_borders`:
coordinate 0 (the row, `y`) is compared against `height`, coordinate 1 (the
column, `x`) against `width`. -/
def borderPred (border height width : ℤ) (p : ℤ × ℤ) : Bool :=
  (decide (border ≤ p.1) && decide (p.1 < height - border)) &&
  (decide (border ≤ p.2) && decide (p.2 < width - border))

/-- The boolean mask `mask_h & mask_w` of `remove_borders`. -/
def borderMask (keypoints : List (ℤ × ℤ)) (border height width : ℤ) : List Bool :=
  keypoints.map (borderPred border height width)

/-- Boolean-mask indexing `t[mask]` of a tensor, as used on parallel arrays. -/
def maskSel {α : Type} (l : List α) (m : List Bool) : List α :=
  ((l.zip m).filter fun x => x.2).map fun x => x.1

/-- `remove_borders(keypoints, scores, border, height, width)`. -/
def remove_borders (keypoints : List (ℤ × ℤ)) (scores : List ℚ)
    (border height width : ℤ) : List (ℤ × ℤ) × List ℚ :=
  (maskSel keypoints (borderMask keypoints border height width),
   maskSel scores (borderMask keypoints border height width))

/-- `top_k_keypoints(keypoints, scores, k)`: all points if `k >= len`,
otherwise the `k` highest-scoring ones via `torch.topk` (values sorted in
descending order, ties resolved by position). -/
def top_k_keypoints (keypoints : List (ℤ × ℤ)) (scores : List ℚ) (k : ℕ) :
    List (ℤ × ℤ) × List ℚ :=
  if keypoints.length ≤ k then (keypoints, scores)
  else
    let top := (scores.enum.mergeSort fun a b => decide (b.2 ≤ a.2)).take k
    (top.map fun x => keypoints.getD x.1 (0, 0), top.map fun x => x.2)

/-! ## img2superpoint.py : SuperPoint configuration and forward selection -/

/-- The configuration dictionary of `SuperPoint` (`remove_borders` key named
`border` here to keep it apart from the function of the same name). -/
structure SPConfig where
  descriptor_dim : ℕ
  nms_radius : ℕ
  keypoint_threshold : ℚ
  max_keypoints : ℤ
  border : ℕ
deriving DecidableEq

/-- `SuperPoint.default_config`. -/
def spDefaultConfig : SPConfig :=
  { descriptor_dim := 256, nms_radius := 4, keypoint_threshold := 0.005,
    max_keypoints := -1, border := 4 }

/-- The validation step of `SuperPoint.__init__`: raises
`ValueError` when `max_keypoints` is `0` or less than `-1`. -/
def spInit (config : SPConfig) : Except String SPConfig :=
  if config.max_keypoints = 0 ∨ config.max_keypoints < -1 then
    Except.error "max_keypoints must be positive or -1"
  else Except.ok config

/-- `torch.nonzero(s > t)` on an `H × W` map: the list of positions with value
above the threshold, in row-major order. -/
def nonzeroGT (H W : ℕ) (t : ℚ) (s : ℕ × ℕ → ℚ) : List (ℕ × ℕ) :=
  ((List.range H).flatMap fun i => (List.range W).map fun j => (i, j)).filter
    fun p => decide (t < s p)

/-- The NMS stage of `SuperPoint.forward`: `simple_nms(scores, 4)` — the
radius is the literal `4`, not the configured `nms_radius`. -/
def spNms (H W : ℕ) (s : ℕ × ℕ → ℚ) : ℕ × ℕ → ℚ :=
  simple_nms H W 4 s

/-- `torch.nonzero(s > 0.005)` of `SuperPoint.forward` — the threshold is the
literal `0.005`, not the configured `keypoint_threshold`. -/
def spKeypoints0 (H W : ℕ) (s : ℕ × ℕ → ℚ) : List (ℕ × ℕ) :=
  nonzeroGT H W 0.005 (spNms H W s)

/-- `scores = s[tuple(k.t())]`: the score of each surviving position. -/
def spScores0 (H W : ℕ) (s : ℕ × ℕ → ℚ) : List ℚ :=
  (spKeypoints0 H W s).map (spNms H W s)

/-- `remove_borders(k, s, 4, h*8, w*8)` of `SuperPoint.forward` — the border
is the literal `4`; `h*8, w*8` are the score-map dimensions `H, W`. -/
def spBordered (H W : ℕ) (s : ℕ × ℕ → ℚ) : List (ℤ × ℤ) × List ℚ :=
  remove_borders ((spKeypoints0 H W s).map fun p => ((p.1 : ℤ), (p.2 : ℤ)))
    (spScores0 H W s) 4 (H : ℤ) (W : ℤ)

/-- `top_k_keypoints(k, s, 1024)` of `SuperPoint.forward` — the cap is the
literal `1024`, not the configured `max_keypoints`. -/
def spTopK (H W : ℕ) (s : ℕ × ℕ → ℚ) : List (ℤ × ℤ) × List ℚ :=
  top_k_keypoints (spBordered H W s).1 (spBordered H W s).2 1024

/-- The keypoint-selection portion of `SuperPoint.forward` applied to the
backbone's dense score map: NMS, thresholding, border removal, top-K cap and
the final `torch.flip(k, [1])` that reorders `(y, x)` into `(x, y)`.  The
configuration argument mirrors `self.config`; the body, like the source,
only ever uses hard-coded literals. -/
def spForwardSelect (_config : SPConfig) (H W : ℕ) (s : ℕ × ℕ → ℚ) :
    List (ℤ × ℤ) × List ℚ :=
  ((spTopK H W s).1.map (fun p => (p.2, p.1)), (spTopK H W s).2)

/-! ## superpoints2rank.py : ranking_score -/

/-- `ranking_score(matches, match_confidence) =
np.sum(np.multiply(matches, match_confidence))`: the elementwise product of
the match-index array and the confidence array, summed.  (`matches` is a
reserved word in Lean, hence the argument name `matchArr`.) -/
def ranking_score (matchArr : List ℤ) (match_confidence : List ℚ) : ℚ :=
  ((matchArr.zip match_confidence).map fun x => (x.1 : ℚ) * x.2).sum

/-! ## superpoints2rank.py : log-domain optimal transport

The similarity matrix handed to `log_optimal_transport` is produced by the
opaque pretrained encoder/attention network; it enters the embedding as an
arbitrary real matrix `scores : Fin m → Fin n → ℝ`. -/

open scoped Classical

/-- `logsumexp` over one tensor dimension. -/
noncomputable def lse {k : ℕ} (g : Fin k → ℝ) : ℝ :=
  Real.log (∑ i, Real.exp (g i))

/-- One iteration of the loop of `log_sinkhorn_iterations`: `u` is updated
from the previous `v`, then `v` from the fresh `u`. -/
noncomputable def sinkStep {m n : ℕ} (Z : Fin m → Fin n → ℝ)
    (log_mu : Fin m → ℝ) (log_nu : Fin n → ℝ)
    (uv : (Fin m → ℝ) × (Fin n → ℝ)) : (Fin m → ℝ) × (Fin n → ℝ) :=
  let u := fun i => log_mu i - lse (fun j => Z i j + uv.2 j)
  let v := fun j => log_nu j - lse (fun i => Z i j + u i)
  (u, v)

/-- `log_sinkhorn_iterations(Z, log_mu, log_nu, iters)`: iterate from
`u = v = 0` and return `Z + u.unsqueeze(2) + v.unsqueeze(1)`. -/
noncomputable def log_sinkhorn_iterations {m n : ℕ} (Z : Fin m → Fin n → ℝ)
    (log_mu : Fin m → ℝ) (log_nu : Fin n → ℝ) (iters : ℕ) :
    Fin m → Fin n → ℝ :=
  let uv := (sinkStep Z log_mu log_nu)^[iters] (fun _ => 0, fun _ => 0)
  fun i j => Z i j + uv.1 i + uv.2 j

/-- The `couplings` matrix of `log_optimal_transport`: the raw scores with one
extra dustbin row and column filled with the learned scalar `alpha`. -/
noncomputable def couplings {m n : ℕ} (scores : Fin m → Fin n → ℝ) (alpha : ℝ) :
    Fin (m + 1) → Fin (n + 1) → ℝ :=
  fun i j =>
    if hi : (i : ℕ) < m then
      if hj : (j : ℕ) < n then scores ⟨i, hi⟩ ⟨j, hj⟩ else alpha
    else alpha

/-- `norm = -(ms + ns).log()` of `log_optimal_transport`. -/
noncomputable def otNorm (m n : ℕ) : ℝ := -Real.log (m + n)

/-- `log_mu`: `norm` on each real row, `ns.log() + norm` on the dustbin row. -/
noncomputable def otLogMu (m n : ℕ) : Fin (m + 1) → ℝ := fun i =>
  if (i : ℕ) < m then otNorm m n else Real.log n + otNorm m n

/-- `log_nu`: `norm` on each real column, `ms.log() + norm` on the dustbin
column. -/
noncomputable def otLogNu (m n : ℕ) : Fin (n + 1) → ℝ := fun j =>
  if (j : ℕ) < n then otNorm m n else Real.log m + otNorm m n

/-- `log_optimal_transport(scores, alpha, iters)`: Sinkhorn on the augmented
matrix followed by `Z = Z - norm`. -/
noncomputable def log_optimal_transport {m n : ℕ} (scores : Fin m → Fin n → ℝ)
    (alpha : ℝ) (iters : ℕ) : Fin (m + 1) → Fin (n + 1) → ℝ :=
  fun i j =>
    log_sinkhorn_iterations (couplings scores alpha) (otLogMu m n) (otLogNu m n)
      iters i j - otNorm m n

/-! ## superpoints2rank.py : match extraction of SuperGlue.forward

The tail of `SuperGlue.forward` (lines 199–210) reads the transported matrix
`Z = scores` of shape `(m+1) × (n+1)`, takes per-row and per-column argmaxima
over `Z[:, :-1, :-1]`, keeps mutual pairs, exponentiates their scores and
thresholds them.  `torch.max` along a dimension returns the first index
attaining the maximum. -/

/-- The first index at which `f` attains its maximum (`torch.max(..., dim)`
index semantics: a later index replaces the current one only on a strictly
greater value). -/
noncomputable def argmaxFin {n : ℕ} (hn : 0 < n) (f : Fin n → ℝ) : Fin n :=
  (List.finRange n).foldl (fun b j => if f b < f j then j else b) ⟨0, hn⟩

/-- `indices0 = scores[:, :-1, :-1].max(2).indices`. -/
noncomputable def indices0 {m n : ℕ} (hn : 0 < n)
    (Z : Fin (m + 1) → Fin (n + 1) → ℝ) (i : Fin m) : Fin n :=
  argmaxFin hn fun j => Z i.castSucc j.castSucc

/-- `indices1 = scores[:, :-1, :-1].max(1).indices`. -/
noncomputable def indices1 {m n : ℕ} (hm : 0 < m)
    (Z : Fin (m + 1) → Fin (n + 1) → ℝ) (j : Fin n) : Fin m :=
  argmaxFin hm fun i => Z i.castSucc j.castSucc

/-- `mutual0[i] = (indices1.gather(1, indices0) == arange)[i]`. -/
noncomputable def mutual0 {m n : ℕ} (hm : 0 < m) (hn : 0 < n)
    (Z : Fin (m + 1) → Fin (n + 1) → ℝ) (i : Fin m) : Prop :=
  indices1 hm Z (indices0 hn Z i) = i

/-- `mutual1[j] = (indices0.gather(1, indices1) == arange)[j]`. -/
noncomputable def mutual1 {m n : ℕ} (hm : 0 < m) (hn : 0 < n)
    (Z : Fin (m + 1) → Fin (n + 1) → ℝ) (j : Fin n) : Prop :=
  indices0 hn Z (indices1 hm Z j) = j

/-- `mscores0 = torch.where(mutual0, max0.values.exp(), 0)`; the row maximum
is attained at `indices0`, so `max0.values[i] = Z[i, indices0[i]]`. -/
noncomputable def mscores0 {m n : ℕ} (hm : 0 < m) (hn : 0 < n)
    (Z : Fin (m + 1) → Fin (n + 1) → ℝ) (i : Fin m) : ℝ :=
  if mutual0 hm hn Z i then Real.exp (Z i.castSucc (indices0 hn Z i).castSucc)
  else 0

/-- `mscores1 = torch.where(mutual1, mscores0.gather(1, indices1), 0)`. -/
noncomputable def mscores1 {m n : ℕ} (hm : 0 < m) (hn : 0 < n)
    (Z : Fin (m + 1) → Fin (n + 1) → ℝ) (j : Fin n) : ℝ :=
  if mutual1 hm hn Z j then mscores0 hm hn Z (indices1 hm Z j) else 0

/-- `valid0 = mutual0 & (mscores0 > match_threshold)`. -/
noncomputable def valid0 {m n : ℕ} (hm : 0 < m) (hn : 0 < n)
    (Z : Fin (m + 1) → Fin (n + 1) → ℝ) (τ : ℝ) (i : Fin m) : Prop :=
  mutual0 hm hn Z i ∧ τ < mscores0 hm hn Z i

/-- `valid1 = mutual1 & valid0.gather(1, indices1)`. -/
noncomputable def valid1 {m n : ℕ} (hm : 0 < m) (hn : 0 < n)
    (Z : Fin (m + 1) → Fin (n + 1) → ℝ) (τ : ℝ) (j : Fin n) : Prop :=
  mutual1 hm hn Z j ∧ valid0 hm hn Z τ (indices1 hm Z j)

/-- `matches0 = torch.where(valid0, indices0, -1)` (integer array). -/
noncomputable def matches0 {m n : ℕ} (hm : 0 < m) (hn : 0 < n)
    (Z : Fin (m + 1) → Fin (n + 1) → ℝ) (τ : ℝ) (i : Fin m) : ℤ :=
  if valid0 hm hn Z τ i then ((indices0 hn Z i : ℕ) : ℤ) else -1

/-- `matches1 = torch.where(valid1, indices1, -1)` (integer array). -/
noncomputable def matches1 {m n : ℕ} (hm : 0 < m) (hn : 0 < n)
    (Z : Fin (m + 1) → Fin (n + 1) → ℝ) (τ : ℝ) (j : Fin n) : ℤ :=
  if valid1 hm hn Z τ j then ((indices1 hm Z j : ℕ) : ℤ) else -1

/-- The output dictionary of `SuperGlue.forward`. -/
structure SGOut where
  matches0 : List ℤ
  matches1 : List ℤ
  matching_scores0 : List ℝ
  matching_scores1 : List ℝ

/-- `SuperGlue.forward` from the similarity matrix on: when either keypoint
set is empty the network is skipped and sentinel arrays of the right shapes
are returned; otherwise optimal transport and match extraction run.  `n0, n1`
are the two keypoint counts, `scores` the similarity matrix produced by the
opaque encoder/attention network (not evaluated on the fast path), `alpha`
the learned `bin_score`, `iters` the configured `sinkhorn_iterations` and `τ`
the configured `match_threshold`. -/
noncomputable def superglueForward (n0 n1 : ℕ) (scores : Fin n0 → Fin n1 → ℝ)
    (alpha : ℝ) (iters : ℕ) (τ : ℝ) : SGOut :=
  if h : n0 = 0 ∨ n1 = 0 then
    { matches0 := List.replicate n0 (-1)
      matches1 := List.replicate n1 (-1)
      matching_scores0 := List.replicate n0 0
      matching_scores1 := List.replicate n1 0 }
  else
    have hm : 0 < n0 := Nat.pos_of_ne_zero fun hh => h (Or.inl hh)
    have hn : 0 < n1 := Nat.pos_of_ne_zero fun hh => h (Or.inr hh)
    let Z := log_optimal_transport scores alpha iters
    { matches0 := (List.finRange n0).map (matches0 hm hn Z τ)
      matches1 := (List.finRange n1).map (matches1 hm hn Z τ)
      matching_scores0 := (List.finRange n0).map (mscores0 hm hn Z)
      matching_scores1 := (List.finRange n1).map (mscores1 hm hn Z) }

/-! ## Helper lemmas -/

theorem maskSel_map {α : Type} (l : List α) (f : α → Bool) :
    maskSel l (l.map f) = l.filter f := by
  induction l with
  | nil => rfl
  | cons a l ih =>
    simp only [maskSel, List.map_cons, List.zip_cons_cons, List.filter_cons]
    simp only [maskSel] at ih
    cases hfa : f a <;> simp [hfa, ih]

theorem maskSel_zip_eq {α β : Type} (l : List α) (l' : List β) (f : α → Bool)
    (h : l'.length = l.length) :
    maskSel l' (l.map f) = ((l.zip l').filter fun x => f x.1).map fun x => x.2 := by
  induction l generalizing l' with
  | nil =>
    cases l' with
    | nil => rfl
    | cons b bs => simp at h
  | cons a l ih =>
    cases l' with
    | nil => simp at h
    | cons b bs =>
      have h' : bs.length = l.length := by simpa using h
      simp only [maskSel, List.map_cons, List.zip_cons_cons, List.filter_cons]
      simp only [maskSel] at ih
      cases hfa : f a <;> simp [hfa, ih bs h']

theorem argmaxFin_attains {n : ℕ} (hn : 0 < n) (f : Fin n → ℝ) (j : Fin n) :
    f j ≤ f (argmaxFin hn f) := by
  have key : ∀ (l : List (Fin n)) (b : Fin n),
      f b ≤ f (l.foldl (fun b j => if f b < f j then j else b) b) ∧
      ∀ x ∈ l, f x ≤ f (l.foldl (fun b j => if f b < f j then j else b) b) := by
    intro l
    induction l with
    | nil => intro b; exact ⟨le_refl _, by simp⟩
    | cons a l ih =>
      intro b
      have hstep : f b ≤ f (if f b < f a then a else b) := by
        by_cases hba : f b < f a
        · rw [if_pos hba]; exact le_of_lt hba
        · rw [if_neg hba]
      have hstepa : f a ≤ f (if f b < f a then a else b) := by
        by_cases hba : f b < f a
        · rw [if_pos hba]
        · rw [if_neg hba]; exact le_of_not_lt hba
      refine ⟨le_trans hstep (ih _).1, ?_⟩
      intro x hx
      rcases List.mem_cons.mp hx with hx | hx
      · subst hx; exact le_trans hstepa (ih _).1
      · exact (ih _).2 x hx
  exact (key (List.finRange n) ⟨0, hn⟩).2 j (List.mem_finRange j)

/-! ## C9 : SuperPoint configuration validation -/

/-- C9: constructing the detector rejects a configuration exactly when its
`max_keypoints` is `0` or less than `-1`; every positive value and exactly
`-1` are accepted (the check runs in `__init__`, before any inference). -/
theorem spInit_accepts_iff (c : SPConfig) :
    ((spInit c).isOk = true ↔ 0 < c.max_keypoints ∨ c.max_keypoints = -1) ∧
    ((spInit c).isOk = false ↔ c.max_keypoints = 0 ∨ c.max_keypoints < -1) := by
  unfold spInit
  by_cases h : c.max_keypoints = 0 ∨ c.max_keypoints < -1
  · rw [if_pos h]
    exact ⟨⟨fun hh => by simp [Except.isOk, Except.toBool] at hh,
            fun hh => absurd h (by omega)⟩,
           ⟨fun _ => h, fun _ => rfl⟩⟩
  · rw [if_neg h]
    exact ⟨⟨fun _ => by omega, fun _ => rfl⟩,
           ⟨fun hh => by simp [Except.isOk, Except.toBool] at hh,
            fun hh => absurd hh h⟩⟩

/-! ## C1 : ranking_score -/

/-- C1 counterexample: `ranking_score` is not the sum of the confidences of
the valid matches.  With the single valid match `matches = [2]` and
confidence `[3]`, the sum over valid matches of the confidence is `3`, but
`ranking_score` returns `2 * 3 = 6`: the code multiplies each confidence by
the matched index, not by the validity indicator. -/
theorem ranking_score_counterexample :
    ranking_score [2] [3] = 6 ∧
    ((([(2 : ℤ)].zip [(3 : ℚ)]).filter fun x => decide (x.1 ≠ -1)).map
        fun x => x.2).sum = 3 ∧
    ranking_score [2] [3] ≠
      ((([(2 : ℤ)].zip [(3 : ℚ)]).filter fun x => decide (x.1 ≠ -1)).map
          fun x => x.2).sum := by
  refine ⟨by norm_num [ranking_score], by norm_num [List.filter], ?_⟩
  rw [show ranking_score [2] [3] = 6 from by norm_num [ranking_score]]
  norm_num [List.filter]

/-- C1 amended: the persisted ranking score is the sum over indices with a
valid match (`matches[i] ≠ -1`) of `matches[i] * match_confidence[i]` — the
confidence weighted by the matched index — provided every invalid entry
carries zero confidence (entries with `matches[i] = -1` then contribute
`-1 * 0 = 0`). -/
theorem ranking_score_weighted_sum (matchArr : List ℤ) (conf : List ℚ)
    (h : ((matchArr.zip conf).all fun x => !decide (x.1 = -1) || decide (x.2 = 0)) = true) :
    ranking_score matchArr conf =
      (((matchArr.zip conf).filter fun x => decide (x.1 ≠ -1)).map
          fun x => (x.1 : ℚ) * x.2).sum := by
  unfold ranking_score
  induction matchArr generalizing conf with
  | nil => rfl
  | cons a l ih =>
    cases conf with
    | nil => rfl
    | cons c cs =>
      simp only [List.zip_cons_cons, List.all_cons, Bool.and_eq_true] at h
      obtain ⟨ha, hrest⟩ := h
      simp only [List.zip_cons_cons, List.map_cons, List.sum_cons, List.filter_cons]
      by_cases hav : a = -1
      · have hc : c = 0 := by
          rcases Bool.or_eq_true _ _ |>.mp ha with hh | hh
          · simp [hav] at hh
          · exact of_decide_eq_true hh
        subst hav hc
        rw [if_neg (by simp)]
        simpa using ih cs hrest
      · rw [if_pos (by simpa using hav)]
        simp only [List.map_cons, List.sum_cons]
        rw [ih cs hrest]

/-- Witness for the amended C1 at `matches = [-1, 2]`,
`match_confidence = [0, 3]`. -/
theorem ranking_score_weighted_sum_witness :
    (((([(-1 : ℤ), 2]).zip [(0 : ℚ), 3]).all
        fun x => !decide (x.1 = -1) || decide (x.2 = 0)) = true) ∧
    ranking_score [(-1 : ℤ), 2] [(0 : ℚ), 3] =
      (((([(-1 : ℤ), 2]).zip [(0 : ℚ), 3]).filter fun x => decide (x.1 ≠ -1)).map
          fun x => (x.1 : ℚ) * x.2).sum :=
  ⟨by decide, ranking_score_weighted_sum _ _ (by decide)⟩

/-! ## C8 : remove_borders -/

/-- C8: `remove_borders` returns exactly the keypoints whose row coordinate
`y = p.1` satisfies `border ≤ y < height - border` and whose column
coordinate `x = p.2` satisfies `border ≤ x < width - border`, with the
parallel scores of exactly those keypoints (pairing preserved), and every
kept keypoint lies in that range. -/
theorem remove_borders_exact (keypoints : List (ℤ × ℤ)) (scores : List ℚ)
    (border height width : ℤ) (h : scores.length = keypoints.length) :
    remove_borders keypoints scores border height width =
      (keypoints.filter (borderPred border height width),
       ((keypoints.zip scores).filter fun x => borderPred border height width x.1).map
         fun x => x.2) ∧
    ∀ p ∈ (remove_borders keypoints scores border height width).1,
      border ≤ p.1 ∧ p.1 < height - border ∧ border ≤ p.2 ∧ p.2 < width - border := by
  have h1 : remove_borders keypoints scores border height width =
      (keypoints.filter (borderPred border height width),
       ((keypoints.zip scores).filter fun x => borderPred border height width x.1).map
         fun x => x.2) := by
    unfold remove_borders borderMask
    exact Prod.ext (maskSel_map _ _) (maskSel_zip_eq _ _ _ h)
  refine ⟨h1, ?_⟩
  intro p hp
  rw [h1] at hp
  have hpred := List.of_mem_filter hp
  unfold borderPred at hpred
  simp only [Bool.and_eq_true, decide_eq_true_eq] at hpred
  exact ⟨hpred.1.1, hpred.1.2, hpred.2.1, hpred.2.2⟩

/-- Witness for C8 at `keypoints = [(0,0), (5,5)]`, `scores = [2, 3]`,
`border = 4`, `height = width = 10`: only `(5,5)` (with score `3`) survives. -/
theorem remove_borders_exact_witness :
    ([(2 : ℚ), 3].length = [((0 : ℤ), (0 : ℤ)), (5, 5)].length) ∧
    remove_borders [((0 : ℤ), (0 : ℤ)), (5, 5)] [(2 : ℚ), 3] 4 10 10 =
      ([((0 : ℤ), (0 : ℤ)), (5, 5)].filter (borderPred 4 10 10),
       (([((0 : ℤ), (0 : ℤ)), (5, 5)].zip [(2 : ℚ), 3]).filter
           fun x => borderPred 4 10 10 x.1).map fun x => x.2) ∧
    remove_borders [((0 : ℤ), (0 : ℤ)), (5, 5)] [(2 : ℚ), 3] 4 10 10 =
      ([(5, 5)], [3]) :=
  ⟨rfl, (remove_borders_exact _ _ 4 10 10 rfl).1, by decide⟩

/-! ## C10 : SuperPoint.forward ignores the selection configuration -/

/-- C10: for any two accepted detector configurations that agree on
`descriptor_dim` (so the opaque backbone, and hence the dense score map fed
to the selection stage, is the same), the keypoint-selection output of
`SuperPoint.forward` is identical: the forward pass uses the hard-coded
literals `4` (NMS radius), `0.005` (threshold), `4` (border) and `1024`
(top-K cap) instead of the configured `nms_radius`, `keypoint_threshold`,
`remove_borders` and `max_keypoints`. -/
theorem spForward_ignores_selection_config (c1 c2 : SPConfig)
    (_h1 : spInit c1 = Except.ok c1) (_h2 : spInit c2 = Except.ok c2)
    (_hd : c1.descriptor_dim = c2.descriptor_dim) (H W : ℕ) (s : ℕ × ℕ → ℚ) :
    spForwardSelect c1 H W s = spForwardSelect c2 H W s := rfl

/-- Witness for C10: the default configuration and a configuration with
different `nms_radius`, `keypoint_threshold`, `max_keypoints` and border are
both accepted and select identically. -/
theorem spForward_ignores_selection_config_witness :
    spInit spDefaultConfig = Except.ok spDefaultConfig ∧
    spInit ⟨256, 9, 3, 50, 0⟩ = Except.ok ⟨256, 9, 3, 50, 0⟩ ∧
    spForwardSelect spDefaultConfig 2 2 (fun _ => 1) =
      spForwardSelect ⟨256, 9, 3, 50, 0⟩ 2 2 (fun _ => 1) :=
  ⟨by rfl, by rfl,
   spForward_ignores_selection_config spDefaultConfig ⟨256, 9, 3, 50, 0⟩
     (by rfl) (by rfl) rfl 2 2 _⟩

/-! ## C7 : SuperGlue empty-keypoint fast path -/

/-- C7: when either keypoint set is empty, `SuperGlue.forward` returns the
sentinel output — match arrays filled with `-1` of lengths `n0` and `n1` and
zero confidence arrays of the same lengths — and does so without running the
encoder/attention/transport network: the result does not depend on the
similarity matrix, the dustbin score or the iteration count. -/
theorem superglue_empty_fast_path (n0 n1 : ℕ) (S S' : Fin n0 → Fin n1 → ℝ)
    (alpha alpha' : ℝ) (iters iters' : ℕ) (τ τ' : ℝ) (h : n0 = 0 ∨ n1 = 0) :
    superglueForward n0 n1 S alpha iters τ =
      { matches0 := List.replicate n0 (-1), matches1 := List.replicate n1 (-1),
        matching_scores0 := List.replicate n0 0,
        matching_scores1 := List.replicate n1 0 } ∧
    superglueForward n0 n1 S alpha iters τ =
      superglueForward n0 n1 S' alpha' iters' τ' ∧
    (superglueForward n0 n1 S alpha iters τ).matches0.length = n0 ∧
    (superglueForward n0 n1 S alpha iters τ).matches1.length = n1 ∧
    (superglueForward n0 n1 S alpha iters τ).matching_scores0.length = n0 ∧
    (superglueForward n0 n1 S alpha iters τ).matching_scores1.length = n1 := by
  have hfast : ∀ (T : Fin n0 → Fin n1 → ℝ) (a : ℝ) (it : ℕ) (t : ℝ),
      superglueForward n0 n1 T a it t =
        { matches0 := List.replicate n0 (-1), matches1 := List.replicate n1 (-1),
          matching_scores0 := List.replicate n0 0,
          matching_scores1 := List.replicate n1 0 } := by
    intro T a it t
    unfold superglueForward
    rw [dif_pos h]
  refine ⟨hfast S alpha iters τ, ?_, ?_, ?_, ?_, ?_⟩ <;>
    rw [hfast S alpha iters τ] <;>
    simp [hfast S' alpha' iters' τ', List.length_replicate]

/-- Witness for C7 with an empty first set and three keypoints in the second
set, under two different similarity matrices and transport parameters. -/
theorem superglue_empty_fast_path_witness :
    superglueForward 0 3 (fun _ _ => 0) 0 1 (1/5) =
      { matches0 := List.replicate 0 (-1), matches1 := List.replicate 3 (-1),
        matching_scores0 := List.replicate 0 0,
        matching_scores1 := List.replicate 3 0 } ∧
    superglueForward 0 3 (fun _ _ => 0) 0 1 (1/5) =
      superglueForward 0 3 (fun _ _ => 1) 2 20 0 :=
  ⟨(superglue_empty_fast_path 0 3 (fun _ _ => 0) (fun _ _ => 1) 0 2 1 20 (1/5) 0
      (Or.inl rfl)).1,
   (superglue_empty_fast_path 0 3 (fun _ _ => 0) (fun _ _ => 1) 0 2 1 20 (1/5) 0
      (Or.inl rfl)).2.1⟩

/-! ## C3 : match symmetry of the extraction stage -/

/-- C3: the matches emitted by the extraction tail of `SuperGlue.forward` are
symmetric.  Whenever `matches0[i] ≠ -1`, the stored index is `indices0[i]`
and `matches1[indices0[i]] = i`; symmetrically for `matches1`. -/
theorem match_symmetry (m n : ℕ) (hm : 0 < m) (hn : 0 < n)
    (Z : Fin (m + 1) → Fin (n + 1) → ℝ) (τ : ℝ) (i : Fin m) (j : Fin n) :
    (matches0 hm hn Z τ i ≠ -1 →
      matches0 hm hn Z τ i = ((indices0 hn Z i : ℕ) : ℤ) ∧
      matches1 hm hn Z τ (indices0 hn Z i) = ((i : ℕ) : ℤ)) ∧
    (matches1 hm hn Z τ j ≠ -1 →
      matches1 hm hn Z τ j = ((indices1 hm Z j : ℕ) : ℤ) ∧
      matches0 hm hn Z τ (indices1 hm Z j) = ((j : ℕ) : ℤ)) := by
  constructor
  · intro hne
    have hv0 : valid0 hm hn Z τ i := by
      by_contra hv
      exact hne (by unfold matches0; rw [if_neg hv])
    have hmut : indices1 hm Z (indices0 hn Z i) = i := hv0.1
    have hv1 : valid1 hm hn Z τ (indices0 hn Z i) := by
      refine ⟨?_, ?_⟩
      · unfold mutual1
        rw [hmut]
      · rw [hmut]; exact hv0
    constructor
    · unfold matches0; rw [if_pos hv0]
    · unfold matches1; rw [if_pos hv1, hmut]
  · intro hne
    have hv1 : valid1 hm hn Z τ j := by
      by_contra hv
      exact hne (by unfold matches1; rw [if_neg hv])
    have hmut : indices0 hn Z (indices1 hm Z j) = j := hv1.1
    have hv0 : valid0 hm hn Z τ (indices1 hm Z j) := hv1.2
    constructor
    · unfold matches1; rw [if_pos hv1]
    · unfold matches0; rw [if_pos hv0, hmut]

/-- Witness for C3 on a `1 × 1` pair (the conclusion's implications are
instantiated at the only indices). -/
theorem match_symmetry_witness :
    (@matches0 1 1 one_pos one_pos (fun _ _ => 0) (1/5) 0 ≠ -1 →
      @matches0 1 1 one_pos one_pos (fun _ _ => 0) (1/5) 0 =
        ((@indices0 1 1 one_pos (fun _ _ => 0) 0 : ℕ) : ℤ) ∧
      @matches1 1 1 one_pos one_pos (fun _ _ => 0) (1/5)
          (@indices0 1 1 one_pos (fun _ _ => 0) 0) = ((0 : ℕ) : ℤ)) ∧
    (@matches1 1 1 one_pos one_pos (fun _ _ => 0) (1/5) 0 ≠ -1 →
      @matches1 1 1 one_pos one_pos (fun _ _ => 0) (1/5) 0 =
        ((@indices1 1 1 one_pos (fun _ _ => 0) 0 : ℕ) : ℤ) ∧
      @matches0 1 1 one_pos one_pos (fun _ _ => 0) (1/5)
          (@indices1 1 1 one_pos (fun _ _ => 0) 0) = ((0 : ℕ) : ℤ)) :=
  match_symmetry 1 1 one_pos one_pos (fun _ _ => 0) (1/5) 0 0

/-! ## C2 : invalid matches and their confidence -/

/-- C2 amended: an entry rejected from `matches0` (sentinel `-1`) carries a
confidence of at most `match_threshold` — it is exactly `0` when the pair is
not mutual, but a mutual pair whose exponentiated score does not exceed the
threshold keeps its positive confidence while still being reported as `-1`;
likewise on the `matches1` side. -/
theorem invalid_match_confidence_le_threshold (m n : ℕ) (hm : 0 < m)
    (hn : 0 < n) (Z : Fin (m + 1) → Fin (n + 1) → ℝ) (τ : ℝ) (hτ : 0 ≤ τ)
    (i : Fin m) (j : Fin n) :
    (matches0 hm hn Z τ i = -1 → mscores0 hm hn Z i ≤ τ) ∧
    (matches1 hm hn Z τ j = -1 → mscores1 hm hn Z j ≤ τ) := by
  have hms0 : ∀ i' : Fin m, ¬valid0 hm hn Z τ i' → mscores0 hm hn Z i' ≤ τ := by
    intro i' hv
    by_cases hmut : mutual0 hm hn Z i'
    · by_cases hgt : τ < mscores0 hm hn Z i'
      · exact absurd ⟨hmut, hgt⟩ hv
      · exact le_of_not_lt hgt
    · unfold mscores0
      rw [if_neg hmut]
      exact hτ
  constructor
  · intro hne
    have hv : ¬valid0 hm hn Z τ i := by
      intro hv
      have : matches0 hm hn Z τ i = ((indices0 hn Z i : ℕ) : ℤ) := by
        unfold matches0; rw [if_pos hv]
      rw [this] at hne
      omega
    exact hms0 i hv
  · intro hne
    have hv : ¬valid1 hm hn Z τ j := by
      intro hv
      have : matches1 hm hn Z τ j = ((indices1 hm Z j : ℕ) : ℤ) := by
        unfold matches1; rw [if_pos hv]
      rw [this] at hne
      omega
    unfold mscores1
    by_cases hmut : mutual1 hm hn Z j
    · rw [if_pos hmut]
      refine hms0 _ ?_
      intro hv0
      exact hv ⟨hmut, hv0⟩
    · rw [if_neg hmut]
      exact hτ

/-- Witness for the amended C2 on a `1 × 1` pair. -/
theorem invalid_match_confidence_le_threshold_witness :
    (0 : ℝ) ≤ 1/5 ∧
    ((@matches0 1 1 one_pos one_pos (fun _ _ => 0) (1/5) 0 = -1 →
      @mscores0 1 1 one_pos one_pos (fun _ _ => 0) 0 ≤ 1/5) ∧
    (@matches1 1 1 one_pos one_pos (fun _ _ => 0) (1/5) 0 = -1 →
      @mscores1 1 1 one_pos one_pos (fun _ _ => 0) 0 ≤ 1/5)) :=
  ⟨by norm_num,
   invalid_match_confidence_le_threshold 1 1 one_pos one_pos
     (fun _ _ => 0) (1/5) (by norm_num) 0 0⟩

/-! ## C5 : simple_nms idempotence -/

theorem self_mem_nbhd (H W r : ℕ) (p : ℕ × ℕ) : p ∈ nbhd H W r p :=
  Finset.mem_insert_self _ _

theorem mem_nbhd_iff {H W r : ℕ} {p q : ℕ × ℕ} (hp : inGrid H W p) :
    q ∈ nbhd H W r p ↔
      p.1 - r ≤ q.1 ∧ q.1 ≤ p.1 + r ∧ q.1 < H ∧
      p.2 - r ≤ q.2 ∧ q.2 ≤ p.2 + r ∧ q.2 < W := by
  obtain ⟨hp1, hp2⟩ := hp
  simp only [nbhd, Finset.mem_insert, Finset.mem_product, Finset.mem_Icc,
    le_min_iff, Prod.ext_iff]
  omega

theorem mem_nbhd_symm {H W r : ℕ} {p q : ℕ × ℕ} (hp : inGrid H W p)
    (hq : inGrid H W q) (h : q ∈ nbhd H W r p) : p ∈ nbhd H W r q := by
  rw [mem_nbhd_iff hp] at h
  rw [mem_nbhd_iff hq]
  omega

theorem inGrid_of_mem_nbhd {H W r : ℕ} {p q : ℕ × ℕ} (hp : inGrid H W p)
    (hq : q ∈ nbhd H W r p) : inGrid H W q := by
  rw [mem_nbhd_iff hp] at hq
  exact ⟨hq.2.2.1, hq.2.2.2.2.2⟩

theorem le_maxpool {H W r : ℕ} (s : ℕ × ℕ → ℚ) {p q : ℕ × ℕ}
    (hq : q ∈ nbhd H W r p) : s q ≤ maxpool H W r s p :=
  Finset.le_sup' s hq

theorem maxpool_eq_of_forall_le {H W r : ℕ} {s : ℕ × ℕ → ℚ} {p : ℕ × ℕ}
    (h : ∀ q ∈ nbhd H W r p, s q ≤ s p) : maxpool H W r s p = s p :=
  le_antisymm (Finset.sup'_le _ _ h) (Finset.le_sup' _ (self_mem_nbhd H W r p))

theorem suppOf_iff {H W r : ℕ} (m : ℕ × ℕ → Bool) (p : ℕ × ℕ) :
    suppOf H W r m p = true ↔ ∃ q ∈ nbhd H W r p, m q = true := by
  unfold suppOf
  rw [decide_eq_true_eq]
  constructor
  · intro h
    obtain ⟨q, hq, hval⟩ :=
      Finset.exists_mem_eq_sup' (Finset.insert_nonempty p _)
        (fun q => if m q then (1 : ℚ) else 0)
    rw [show maxpool H W r (fun q => if m q then (1 : ℚ) else 0) p =
          if m q then (1 : ℚ) else 0 from hval] at h
    by_cases hm : m q
    · exact ⟨q, hq, hm⟩
    · rw [if_neg hm] at h
      exact absurd h (lt_irrefl 0)
  · rintro ⟨q, hq, hm⟩
    have h1 : (1 : ℚ) ≤ maxpool H W r (fun q => if m q then (1 : ℚ) else 0) p := by
      have h2 := le_maxpool (fun q => if m q then (1 : ℚ) else 0) hq
      simpa [hm] using h2
    linarith

theorem nmsPass_mono {H W r : ℕ} {s : ℕ × ℕ → ℚ} {m : ℕ × ℕ → Bool}
    {p : ℕ × ℕ} (h : m p = true) : nmsPass H W r s m p = true := by
  unfold nmsPass
  rw [h, Bool.true_or]

theorem survivorsSound_localMax (H W r : ℕ) (s : ℕ × ℕ → ℚ) :
    survivorsSound H W r s (localMax H W r s) := by
  intro p q _hp _hq hmp hmq hmem
  have hle := le_maxpool s hmem
  have heq : s p = maxpool H W r s p := of_decide_eq_true hmp
  rw [← heq] at hle
  exact hle

theorem survivorsSound_nmsPass {H W r : ℕ} {s : ℕ × ℕ → ℚ} {m : ℕ × ℕ → Bool}
    (hm : survivorsSound H W r s m) : survivorsSound H W r s (nmsPass H W r s m) := by
  intro p q hp hq hmp hmq hmem
  unfold nmsPass at hmp hmq
  rw [Bool.or_eq_true] at hmp hmq
  rcases hmp with hmp | hmp
  · rcases hmq with hmq | hmq
    · exact hm p q hp hq hmp hmq hmem
    · rw [Bool.and_eq_true] at hmq
      have hsupp : suppOf H W r m q = true :=
        (suppOf_iff m q).mpr ⟨p, mem_nbhd_symm hp hq hmem, hmp⟩
      rw [hsupp] at hmq
      simp at hmq
  · rcases hmq with hmq | hmq
    · rw [Bool.and_eq_true] at hmp
      have hsupp : suppOf H W r m p = true :=
        (suppOf_iff m p).mpr ⟨q, hmem, hmq⟩
      rw [hsupp] at hmp
      simp at hmp
    · rw [Bool.and_eq_true] at hmp hmq
      obtain ⟨hlmp, hnsp⟩ := hmp
      obtain ⟨hlmq, hnsq⟩ := hmq
      have hfp : suppOf H W r m p = false := by simpa using hnsp
      have hfq : suppOf H W r m q = false := by simpa using hnsq
      have hsp : suppScoresOf s (suppOf H W r m) p = s p := by
        unfold suppScoresOf
        rw [hfp]
        simp
      have hsq : suppScoresOf s (suppOf H W r m) q = s q := by
        unfold suppScoresOf
        rw [hfq]
        simp
      have hle := le_maxpool (suppScoresOf s (suppOf H W r m)) hmem
      have heq : suppScoresOf s (suppOf H W r m) p =
          maxpool H W r (suppScoresOf s (suppOf H W r m)) p :=
        of_decide_eq_true hlmp
      rw [← heq, hsp, hsq] at hle
      exact hle

/-- C5 counterexample: on the `1 × 2` score map `[-1, -2]` with radius `1`,
`simple_nms` keeps `-1` at position `(0,0)`, but running `simple_nms` again
on that output suppresses it (the suppressed `0` at `(0,1)` now exceeds the
kept negative score), so NMS is not idempotent on arbitrary score maps. -/
theorem simple_nms_not_idempotent :
    simple_nms 1 2 1
        (fun p => if p = (0, 0) then (-1 : ℚ) else if p = (0, 1) then -2 else 0)
        (0, 0) = -1 ∧
    simple_nms 1 2 1
        (simple_nms 1 2 1
          (fun p => if p = (0, 0) then (-1 : ℚ) else if p = (0, 1) then -2 else 0))
        (0, 0) = 0 := by
  constructor <;> (set_option maxRecDepth 100000 in decide)

/-- C5 amended: `simple_nms` is idempotent on score maps that are
non-negative on the grid (in the pipeline the maps are softmax
probabilities, hence non-negative): re-running NMS with the same radius on
its own output leaves every grid entry unchanged.  On maps with negative
entries idempotence fails (see the counterexample). -/
theorem simple_nms_idempotent_nonneg (H W r : ℕ) (s : ℕ × ℕ → ℚ)
    (hs : ∀ p, inGrid H W p → 0 ≤ s p) (p : ℕ × ℕ) (hp : inGrid H W p) :
    simple_nms H W r (simple_nms H W r s) p = simple_nms H W r s p := by
  by_cases h0 : simple_nms H W r s p = 0
  · show (if nmsPass H W r (simple_nms H W r s)
          (nmsPass H W r (simple_nms H W r s) (localMax H W r (simple_nms H W r s))) p
        then simple_nms H W r s p else 0) = simple_nms H W r s p
    rw [h0]
    simp
  · have hmask : nmsPass H W r s (nmsPass H W r s (localMax H W r s)) p = true := by
      by_contra hc
      exact h0 (by unfold simple_nms; rw [if_neg (by simpa using hc)])
    have houtp : simple_nms H W r s p = s p := by
      unfold simple_nms
      rw [if_pos hmask]
    have hspos : 0 < s p := by
      rcases lt_or_eq_of_le (hs p hp) with h | h
      · exact h
      · exact absurd (by rw [houtp, ← h]) h0
    have hsound :
        survivorsSound H W r s (nmsPass H W r s (nmsPass H W r s (localMax H W r s))) :=
      survivorsSound_nmsPass (survivorsSound_nmsPass (survivorsSound_localMax H W r s))
    have hbound : ∀ q ∈ nbhd H W r p,
        simple_nms H W r s q ≤ simple_nms H W r s p := by
      intro q hmem
      have hq := inGrid_of_mem_nbhd hp hmem
      rw [houtp]
      by_cases hmq : nmsPass H W r s (nmsPass H W r s (localMax H W r s)) q = true
      · have : simple_nms H W r s q = s q := by
          unfold simple_nms
          rw [if_pos hmq]
        rw [this]
        exact hsound p q hp hq hmask hmq hmem
      · have : simple_nms H W r s q = 0 := by
          unfold simple_nms
          rw [if_neg (by simpa using hmq)]
        rw [this]
        exact le_of_lt hspos
    have hlm : localMax H W r (simple_nms H W r s) p = true := by
      unfold localMax
      rw [decide_eq_true_eq]
      exact (maxpool_eq_of_forall_le hbound).symm
    show (if nmsPass H W r (simple_nms H W r s)
        (nmsPass H W r (simple_nms H W r s) (localMax H W r (simple_nms H W r s))) p
      then simple_nms H W r s p else 0) = simple_nms H W r s p
    rw [if_pos (nmsPass_mono (nmsPass_mono hlm))]

/-- Witness for the amended C5 on a concrete non-negative map: the constant
`1` map on a `2 × 2` grid with radius `1`, checked at position `(0, 0)`. -/
theorem simple_nms_idempotent_nonneg_witness :
    simple_nms 2 2 1 (simple_nms 2 2 1 (fun _ => 1)) (0, 0) =
      simple_nms 2 2 1 (fun _ => 1) (0, 0) :=
  simple_nms_idempotent_nonneg 2 2 1 (fun _ => 1)
    (fun _ _ => by norm_num) (0, 0) (by constructor <;> norm_num)

/-! ## C4 : the top-K cap of the detector -/

theorem simple_nms_const (H W r : ℕ) (c : ℚ) (p : ℕ × ℕ) :
    simple_nms H W r (fun _ => c) p = c := by
  have hlm : localMax H W r (fun _ => c) p = true := by
    unfold localMax maxpool
    simp [Finset.sup'_const]
  show (if nmsPass H W r (fun _ => c)
      (nmsPass H W r (fun _ => c) (localMax H W r (fun _ => c))) p
    then c else 0) = c
  rw [if_pos (nmsPass_mono (nmsPass_mono hlm))]

theorem maskSel_length_eq {α β : Type} :
    ∀ (m : List Bool) (l : List α) (l' : List β), l.length = l'.length →
      (maskSel l m).length = (maskSel l' m).length := by
  intro m
  induction m with
  | nil =>
    intro l l' _
    simp [maskSel]
  | cons c m ih =>
    intro l l' h
    cases l with
    | nil =>
      cases l' with
      | nil => rfl
      | cons b bs => simp at h
    | cons a as =>
      cases l' with
      | nil => simp at h
      | cons b bs =>
        have h' : as.length = bs.length := by simpa using h
        simp only [maskSel, List.zip_cons_cons, List.filter_cons]
        simp only [maskSel] at ih
        cases c <;> simp [ih as bs h']

theorem top_k_keypoints_length (keypoints : List (ℤ × ℤ)) (scores : List ℚ)
    (k : ℕ) (h : scores.length = keypoints.length) :
    (top_k_keypoints keypoints scores k).1.length = min k keypoints.length := by
  unfold top_k_keypoints
  by_cases hk : keypoints.length ≤ k
  · rw [if_pos hk]
    show keypoints.length = min k keypoints.length
    omega
  · rw [if_neg hk]
    simp only [List.length_map, List.length_take, List.length_mergeSort,
      List.enum_length, h]

theorem spBordered_length_eq (H W : ℕ) (s : ℕ × ℕ → ℚ) :
    (spBordered H W s).2.length = (spBordered H W s).1.length := by
  unfold spBordered remove_borders
  exact maskSel_length_eq _ _ _ (by simp [spScores0])

theorem spForwardSelect_length (c : SPConfig) (H W : ℕ) (s : ℕ × ℕ → ℚ) :
    (spForwardSelect c H W s).1.length = min 1024 (spBordered H W s).1.length := by
  unfold spForwardSelect spTopK
  rw [List.length_map]
  exact top_k_keypoints_length _ _ 1024 (spBordered_length_eq H W s)

/-- C4 counterexample: under the default configuration, whose
`max_keypoints` is `-1` ("unlimited"), a constant-`1` score map on a
`41 × 41` grid leaves `33 × 33 = 1089` candidates after thresholding and
border removal, yet `SuperPoint.forward` returns only `1024` keypoints: the
hard-coded `top_k_keypoints(..., 1024)` caps the output regardless of the
configuration. -/
theorem sp_unlimited_config_still_capped :
    spDefaultConfig.max_keypoints = -1 ∧
    (spBordered 41 41 (fun _ => 1)).1.length = 1089 ∧
    (spForwardSelect spDefaultConfig 41 41 (fun _ => 1)).1.length = 1024 := by
  have hkps : spKeypoints0 41 41 (fun _ => 1) =
      (List.range 41).flatMap fun i => (List.range 41).map fun j => (i, j) := by
    unfold spKeypoints0 nonzeroGT
    rw [List.filter_congr
      (q := fun _ => true)
      (fun p _ => decide_eq_true (by
        rw [show spNms 41 41 (fun _ => 1) p = 1 from simple_nms_const 41 41 4 1 p]
        norm_num))]
    exact List.filter_true _
  have hb1 : (spBordered 41 41 (fun _ => 1)).1 =
      (((List.range 41).flatMap fun i => (List.range 41).map fun j => (i, j)).map
        (fun p => ((p.1 : ℤ), (p.2 : ℤ)))).filter (borderPred 4 41 41) := by
    show maskSel _ (borderMask _ 4 41 41) = _
    unfold borderMask
    rw [maskSel_map, hkps]
  have hlen : (spBordered 41 41 (fun _ => 1)).1.length = 1089 := by
    rw [hb1]
    set_option maxRecDepth 100000 in decide
  refine ⟨rfl, hlen, ?_⟩
  rw [spForwardSelect_length, hlen]
  omega

/-- C4 amended: for every accepted detector configuration — including the
default `max_keypoints = -1` ("unlimited") — the keypoint-selection output of
`SuperPoint.forward` has exactly `min 1024 N` keypoints, where `N` is the
number of candidates surviving thresholding and border removal: the top-K
cap is the hard-coded `1024` of the forward pass, never the configured
`max_keypoints`, so `-1` does not lift the cap and a configured positive
maximum does not bound the output. -/
theorem sp_selection_capped_at_1024 (c : SPConfig)
    (_hacc : spInit c = Except.ok c) (H W : ℕ) (s : ℕ × ℕ → ℚ) :
    (spForwardSelect c H W s).1.length = min 1024 (spBordered H W s).1.length :=
  spForwardSelect_length c H W s

/-- Witness for the amended C4 under the default (accepted) configuration on
a `1 × 1` map. -/
theorem sp_selection_capped_at_1024_witness :
    spInit spDefaultConfig = Except.ok spDefaultConfig ∧
    (spForwardSelect spDefaultConfig 1 1 (fun _ => 0)).1.length =
      min 1024 (spBordered 1 1 (fun _ => 0)).1.length :=
  ⟨by rfl, sp_selection_capped_at_1024 spDefaultConfig (by rfl) 1 1 _⟩

/-! ## C6 : matching scores lie in the unit interval -/

theorem exp_lse {k : ℕ} (hk : 0 < k) (g : Fin k → ℝ) :
    Real.exp (lse g) = ∑ i, Real.exp (g i) := by
  unfold lse
  refine Real.exp_log ?_
  have : Nonempty (Fin k) := ⟨⟨0, hk⟩⟩
  exact Finset.sum_pos (fun i _ => Real.exp_pos _) Finset.univ_nonempty

theorem sinkStep_col_sum {m n : ℕ} (Zc : Fin (m + 1) → Fin (n + 1) → ℝ)
    (lmu : Fin (m + 1) → ℝ) (lnu : Fin (n + 1) → ℝ)
    (uv : (Fin (m + 1) → ℝ) × (Fin (n + 1) → ℝ)) (j : Fin (n + 1)) :
    ∑ i, Real.exp (Zc i j + (sinkStep Zc lmu lnu uv).1 i +
        (sinkStep Zc lmu lnu uv).2 j) = Real.exp (lnu j) := by
  have hv : (sinkStep Zc lmu lnu uv).2 j =
      lnu j - lse (fun i => Zc i j + (sinkStep Zc lmu lnu uv).1 i) := rfl
  calc ∑ i, Real.exp (Zc i j + (sinkStep Zc lmu lnu uv).1 i +
          (sinkStep Zc lmu lnu uv).2 j)
      = ∑ i, Real.exp (Zc i j + (sinkStep Zc lmu lnu uv).1 i) *
          Real.exp ((sinkStep Zc lmu lnu uv).2 j) := by
        refine Finset.sum_congr rfl fun i _ => ?_
        rw [Real.exp_add]
    _ = (∑ i, Real.exp (Zc i j + (sinkStep Zc lmu lnu uv).1 i)) *
          Real.exp ((sinkStep Zc lmu lnu uv).2 j) := by
        rw [Finset.sum_mul]
    _ = Real.exp (lse (fun i => Zc i j + (sinkStep Zc lmu lnu uv).1 i)) *
          Real.exp ((sinkStep Zc lmu lnu uv).2 j) := by
        rw [exp_lse (Nat.succ_pos m)]
    _ = Real.exp (lse (fun i => Zc i j + (sinkStep Zc lmu lnu uv).1 i) +
          (sinkStep Zc lmu lnu uv).2 j) := by
        rw [Real.exp_add]
    _ = Real.exp (lnu j) := by
        rw [hv]
        congr 1
        ring

theorem transported_col_sum (m n : ℕ) (S : Fin m → Fin n → ℝ) (alpha : ℝ)
    (k : ℕ) (j : Fin (n + 1)) (hj : (j : ℕ) < n) :
    ∑ i : Fin (m + 1), Real.exp (log_optimal_transport S alpha (k + 1) i j) = 1 := by
  have hZ : ∀ i : Fin (m + 1), log_optimal_transport S alpha (k + 1) i j =
      couplings S alpha i j +
        (sinkStep (couplings S alpha) (otLogMu m n) (otLogNu m n)
          ((sinkStep (couplings S alpha) (otLogMu m n) (otLogNu m n))^[k]
            (fun _ => 0, fun _ => 0))).1 i +
        (sinkStep (couplings S alpha) (otLogMu m n) (otLogNu m n)
          ((sinkStep (couplings S alpha) (otLogMu m n) (otLogNu m n))^[k]
            (fun _ => 0, fun _ => 0))).2 j - otNorm m n := by
    intro i
    simp only [log_optimal_transport, log_sinkhorn_iterations,
      Function.iterate_succ_apply']
  calc ∑ i : Fin (m + 1), Real.exp (log_optimal_transport S alpha (k + 1) i j)
      = ∑ i : Fin (m + 1),
          Real.exp (couplings S alpha i j +
            (sinkStep (couplings S alpha) (otLogMu m n) (otLogNu m n)
              ((sinkStep (couplings S alpha) (otLogMu m n) (otLogNu m n))^[k]
                (fun _ => 0, fun _ => 0))).1 i +
            (sinkStep (couplings S alpha) (otLogMu m n) (otLogNu m n)
              ((sinkStep (couplings S alpha) (otLogMu m n) (otLogNu m n))^[k]
                (fun _ => 0, fun _ => 0))).2 j) /
            Real.exp (otNorm m n) := by
        refine Finset.sum_congr rfl fun i _ => ?_
        rw [hZ i, Real.exp_sub]
    _ = (∑ i : Fin (m + 1),
          Real.exp (couplings S alpha i j +
            (sinkStep (couplings S alpha) (otLogMu m n) (otLogNu m n)
              ((sinkStep (couplings S alpha) (otLogMu m n) (otLogNu m n))^[k]
                (fun _ => 0, fun _ => 0))).1 i +
            (sinkStep (couplings S alpha) (otLogMu m n) (otLogNu m n)
              ((sinkStep (couplings S alpha) (otLogMu m n) (otLogNu m n))^[k]
                (fun _ => 0, fun _ => 0))).2 j)) /
            Real.exp (otNorm m n) := by
        rw [Finset.sum_div]
    _ = Real.exp (otLogNu m n j) / Real.exp (otNorm m n) := by
        rw [sinkStep_col_sum]
    _ = 1 := by
        have hlnu : otLogNu m n j = otNorm m n := by
          unfold otLogNu
          rw [if_pos hj]
        rw [hlnu]
        exact div_self (ne_of_gt (Real.exp_pos _))

theorem transported_entry_le_one (m n : ℕ) (S : Fin m → Fin n → ℝ) (alpha : ℝ)
    (iters : ℕ) (hit : 1 ≤ iters) (i : Fin (m + 1)) (j : Fin (n + 1))
    (hj : (j : ℕ) < n) :
    Real.exp (log_optimal_transport S alpha iters i j) ≤ 1 := by
  obtain ⟨k, rfl⟩ : ∃ k, iters = k + 1 := ⟨iters - 1, by omega⟩
  have hsum := transported_col_sum m n S alpha k j hj
  have hle : Real.exp (log_optimal_transport S alpha (k + 1) i j) ≤
      ∑ i' : Fin (m + 1), Real.exp (log_optimal_transport S alpha (k + 1) i' j) :=
    @Finset.single_le_sum (Fin (m + 1)) ℝ _
      (fun i' => Real.exp (log_optimal_transport S alpha (k + 1) i' j))
      Finset.univ (fun i' _ => le_of_lt (Real.exp_pos _)) i (Finset.mem_univ i)
  rw [hsum] at hle
  exact hle

/-- C6: with at least one Sinkhorn iteration, every entry of
`matching_scores0` and `matching_scores1` lies in `[0, 1]`.  After the final
column update, each real column of the transported matrix sums (in
probability space, after the `Z - norm` shift) to `1`, so each exponentiated
entry is at most `1`; non-mutual entries are exactly `0`. -/
theorem matching_scores_in_unit_interval (m n : ℕ) (hm : 0 < m) (hn : 0 < n)
    (S : Fin m → Fin n → ℝ) (alpha : ℝ) (iters : ℕ) (hit : 1 ≤ iters)
    (i : Fin m) (j : Fin n) :
    mscores0 hm hn (log_optimal_transport S alpha iters) i ∈ Set.Icc (0 : ℝ) 1 ∧
    mscores1 hm hn (log_optimal_transport S alpha iters) j ∈ Set.Icc (0 : ℝ) 1 := by
  have key : ∀ i' : Fin m,
      mscores0 hm hn (log_optimal_transport S alpha iters) i' ∈ Set.Icc (0 : ℝ) 1 := by
    intro i'
    unfold mscores0
    by_cases hmut : mutual0 hm hn (log_optimal_transport S alpha iters) i'
    · rw [if_pos hmut]
      exact ⟨le_of_lt (Real.exp_pos _),
        transported_entry_le_one m n S alpha iters hit i'.castSucc
          (indices0 hn (log_optimal_transport S alpha iters) i').castSucc
          (indices0 hn (log_optimal_transport S alpha iters) i').isLt⟩
    · rw [if_neg hmut]
      exact ⟨le_refl 0, zero_le_one⟩
  refine ⟨key i, ?_⟩
  unfold mscores1
  by_cases hmut : mutual1 hm hn (log_optimal_transport S alpha iters) j
  · rw [if_pos hmut]
    exact key _
  · rw [if_neg hmut]
    exact ⟨le_refl 0, zero_le_one⟩

/-- Witness for C6 on a `1 × 1` pair with one Sinkhorn iteration. -/
theorem matching_scores_in_unit_interval_witness :
    (0 : ℕ) < 1 ∧ 1 ≤ 1 ∧
    (@mscores0 1 1 one_pos one_pos (log_optimal_transport (fun _ _ => 0) 0 1) 0 ∈
        Set.Icc (0 : ℝ) 1 ∧
     @mscores1 1 1 one_pos one_pos (log_optimal_transport (fun _ _ => 0) 0 1) 0 ∈
        Set.Icc (0 : ℝ) 1) :=
  ⟨one_pos, le_refl 1,
   matching_scores_in_unit_interval 1 1 one_pos one_pos (fun _ _ => 0) 0 1
     (le_refl 1) 0 0⟩

/-! ## C2 : counterexample -/

/-- C2 counterexample: on a `1 × 1` pair with raw similarity `-2`, dustbin
score `0`, one Sinkhorn iteration and the configured threshold `1/5`, the
single pair is mutual but its transported confidence `exp(Z[0,0])` lies in
`(0, 1/5]`, so `matches0[0] = -1` while `matching_scores0[0] ≠ 0`: an entry
rejected by the threshold keeps its positive confidence. -/
theorem invalid_match_nonzero_confidence :
    @matches0 1 1 one_pos one_pos
        (log_optimal_transport (fun _ _ => -2) 0 1) (1/5) 0 = -1 ∧
    @mscores0 1 1 one_pos one_pos
        (log_optimal_transport (fun _ _ => -2) 0 1) 0 ≠ 0 := by
  set Z := log_optimal_transport (fun _ _ => (-2 : ℝ)) 0 1 with hZdef
  have hmut : @mutual0 1 1 one_pos one_pos Z 0 := by
    unfold mutual0
    exact Subsingleton.elim _ _
  have hidx : @indices0 1 1 one_pos Z 0 = 0 := Subsingleton.elim _ _
  have hms_eq : @mscores0 1 1 one_pos one_pos Z 0 = Real.exp (Z 0 0) := by
    unfold mscores0
    rw [if_pos hmut, hidx]
    simp only [Fin.castSucc_zero]
  set E := Real.exp (-2) with hE
  have hEpos : 0 < E := by rw [hE]; exact Real.exp_pos _
  have h2 : (0 : ℝ) < 2 := by norm_num
  have hN : otNorm 1 1 = -Real.log 2 := by
    unfold otNorm
    norm_num
  have hexpN : Real.exp (otNorm 1 1) = 1/2 := by
    rw [hN, Real.exp_neg, Real.exp_log h2]
    norm_num
  have hc00 : @couplings 1 1 (fun _ _ => (-2 : ℝ)) 0 0 0 = -2 := by
    unfold couplings
    rw [dif_pos (by decide : ((0 : Fin 2) : ℕ) < 1),
      dif_pos (by decide : ((0 : Fin 2) : ℕ) < 1)]
  have hc01 : @couplings 1 1 (fun _ _ => (-2 : ℝ)) 0 0 1 = 0 := by
    unfold couplings
    rw [dif_pos (by decide : ((0 : Fin 2) : ℕ) < 1),
      dif_neg (by decide : ¬((1 : Fin 2) : ℕ) < 1)]
  have hc10 : @couplings 1 1 (fun _ _ => (-2 : ℝ)) 0 1 0 = 0 := by
    unfold couplings
    rw [dif_neg (by decide : ¬((1 : Fin 2) : ℕ) < 1)]
  have hc11 : @couplings 1 1 (fun _ _ => (-2 : ℝ)) 0 1 1 = 0 := by
    unfold couplings
    rw [dif_neg (by decide : ¬((1 : Fin 2) : ℕ) < 1)]
  have hlmu0 : otLogMu 1 1 0 = otNorm 1 1 := by
    unfold otLogMu
    rw [if_pos (by decide : ((0 : Fin 2) : ℕ) < 1)]
  have hlmu1 : otLogMu 1 1 1 = otNorm 1 1 := by
    unfold otLogMu
    rw [if_neg (by decide : ¬((1 : Fin 2) : ℕ) < 1)]
    norm_num
  have hlnu0 : otLogNu 1 1 0 = otNorm 1 1 := by
    unfold otLogNu
    rw [if_pos (by decide : ((0 : Fin 2) : ℕ) < 1)]
  have hexpu0 : Real.exp ((sinkStep (@couplings 1 1 (fun _ _ => (-2 : ℝ)) 0)
      (otLogMu 1 1) (otLogNu 1 1) (fun _ => 0, fun _ => 0)).1 0) =
      (1/2) / (E + 1) := by
    have h1 : (sinkStep (@couplings 1 1 (fun _ _ => (-2 : ℝ)) 0) (otLogMu 1 1)
        (otLogNu 1 1) (fun _ => 0, fun _ => 0)).1 0 =
        otLogMu 1 1 0 - lse (fun j => @couplings 1 1 (fun _ _ => (-2 : ℝ)) 0 0 j + 0) := rfl
    rw [h1, Real.exp_sub, hlmu0, hexpN, exp_lse (by norm_num : 0 < 2),
      Fin.sum_univ_two]
    simp only [hc00, hc01, add_zero, Real.exp_zero]
  have hexpu1 : Real.exp ((sinkStep (@couplings 1 1 (fun _ _ => (-2 : ℝ)) 0)
      (otLogMu 1 1) (otLogNu 1 1) (fun _ => 0, fun _ => 0)).1 1) = 1/4 := by
    have h1 : (sinkStep (@couplings 1 1 (fun _ _ => (-2 : ℝ)) 0) (otLogMu 1 1)
        (otLogNu 1 1) (fun _ => 0, fun _ => 0)).1 1 =
        otLogMu 1 1 1 - lse (fun j => @couplings 1 1 (fun _ _ => (-2 : ℝ)) 0 1 j + 0) := rfl
    rw [h1, Real.exp_sub, hlmu1, hexpN, exp_lse (by norm_num : 0 < 2),
      Fin.sum_univ_two]
    simp only [hc10, hc11, add_zero, Real.exp_zero]
    norm_num
  have hexpv0 : Real.exp ((sinkStep (@couplings 1 1 (fun _ _ => (-2 : ℝ)) 0)
      (otLogMu 1 1) (otLogNu 1 1) (fun _ => 0, fun _ => 0)).2 0) =
      (1/2) / (E * ((1/2) / (E + 1)) + 1/4) := by
    have h1 : (sinkStep (@couplings 1 1 (fun _ _ => (-2 : ℝ)) 0) (otLogMu 1 1)
        (otLogNu 1 1) (fun _ => 0, fun _ => 0)).2 0 =
        otLogNu 1 1 0 - lse (fun i => @couplings 1 1 (fun _ _ => (-2 : ℝ)) 0 i 0 +
          (sinkStep (@couplings 1 1 (fun _ _ => (-2 : ℝ)) 0) (otLogMu 1 1)
            (otLogNu 1 1) (fun _ => 0, fun _ => 0)).1 i) := rfl
    rw [h1, Real.exp_sub, hlnu0, hexpN, exp_lse (by norm_num : 0 < 2),
      Fin.sum_univ_two]
    simp only [hc00, hc10]
    rw [Real.exp_add, Real.exp_add, hexpu0, hexpu1, ← hE, Real.exp_zero]
    norm_num
  have hZ00 : Z 0 0 = @couplings 1 1 (fun _ _ => (-2 : ℝ)) 0 0 0 +
      (sinkStep (@couplings 1 1 (fun _ _ => (-2 : ℝ)) 0) (otLogMu 1 1) (otLogNu 1 1)
        (fun _ => 0, fun _ => 0)).1 0 +
      (sinkStep (@couplings 1 1 (fun _ _ => (-2 : ℝ)) 0) (otLogMu 1 1) (otLogNu 1 1)
        (fun _ => 0, fun _ => 0)).2 0 - otNorm 1 1 := by
    rw [hZdef]
    simp only [log_optimal_transport, log_sinkhorn_iterations, Function.iterate_one]
  have hexpZ : Real.exp (Z 0 0) =
      ((E * ((1/2) / (E + 1))) *
        ((1/2) / (E * ((1/2) / (E + 1)) + 1/4))) / (1/2) := by
    rw [hZ00, Real.exp_sub, Real.exp_add, Real.exp_add, hc00, hexpu0, hexpv0,
      hexpN, ← hE]
  have hexp2 : (7 : ℝ) ≤ Real.exp 2 := by
    have h1 := Real.exp_one_gt_d9
    have h2' : Real.exp 2 = Real.exp 1 * Real.exp 1 := by
      rw [← Real.exp_add]
      norm_num
    nlinarith [Real.exp_pos 1]
  have hE7 : E ≤ 1/7 := by
    rw [hE, Real.exp_neg]
    have hinv : (Real.exp 2)⁻¹ * Real.exp 2 = 1 :=
      inv_mul_cancel₀ (ne_of_gt (Real.exp_pos 2))
    nlinarith [inv_nonneg.mpr (le_of_lt (Real.exp_pos 2)), hexp2, hinv]
  have hden : (0 : ℝ) < E * ((1/2) / (E + 1)) + 1/4 := by positivity
  have hE1 : (0 : ℝ) < E + 1 := by linarith
  have hbound : Real.exp (Z 0 0) ≤ 1/5 := by
    rw [hexpZ]
    have ht_pos : (0 : ℝ) < E * ((1/2) / (E + 1)) := by positivity
    have ht16 : E * ((1/2) / (E + 1)) ≤ 1/16 := by
      have heq : E * ((1/2) / (E + 1)) = E / (2 * (E + 1)) := by
        field_simp
      rw [heq, div_le_iff₀ (by linarith : (0 : ℝ) < 2 * (E + 1))]
      linarith
    have htq : (0 : ℝ) < E * ((1/2) / (E + 1)) + 1/4 := by linarith
    have heq2 : ((E * ((1/2) / (E + 1))) *
        ((1/2) / (E * ((1/2) / (E + 1)) + 1/4))) / (1/2) =
        (E * ((1/2) / (E + 1))) / (E * ((1/2) / (E + 1)) + 1/4) := by
      field_simp
      ring
    rw [heq2, div_le_iff₀ htq]
    linarith
  have hnv : ¬ @valid0 1 1 one_pos one_pos Z (1/5) 0 := by
    intro hv
    have h5 := hv.2
    rw [hms_eq] at h5
    linarith
  constructor
  · unfold matches0
    rw [if_neg hnv]
  · rw [hms_eq]
    exact ne_of_gt (Real.exp_pos _)
